import Mathlib

/-!
Verification of the evaluation-domain FFT family and the parallel execution
substrate of the crypto3-math library, shallowly embedded in Lean.

The embedding covers:
* `ThreadPool::block_execution` and `parallel_for`
  (include/nil/crypto3/math/multithreading/thread_pool.hpp,
   include/nil/crypto3/math/multithreading/parallelization_utils.hpp);
* `geometric_sequence_domain` (include/nil/crypto3/math/domains/
  geometric_sequence_domain.hpp): construction, precomputed sequences,
  `fft`, `inverse_fft`, `evaluate_all_lagrange_polynomials`,
  `compute_vanishing_polynomial`, `divide_by_z_on_coset`, `add_poly_z`.

C++ `std::size_t` values are modelled as `Nat`.  A C++ integer division by
zero and an out-of-bounds `std::vector` access are undefined behaviour, so
operations that can reach one are modelled with an `Option` result, `none`
marking the crash; `none` likewise models a thrown exception, with the
distinction stated at each definition.  Field elements live in an arbitrary
`Field F`; `x⁻¹` is Lean's field inverse (total, `0⁻¹ = 0`), and claims
about division-by-zero are phrased by collecting the arguments the code
passes to `.inversed()`.
-/

/-- The two pool levels of the `ThreadPool` singleton family
(`LOW_LEVEL_POOL_ID` / `HIGH_LEVEL_POOL_ID`, also named `PoolLevel::LOW` /
`PoolLevel::HIGH` by the callers in parallelization_utils.hpp). -/
inductive PoolLevel where
  | low
  | high
deriving DecidableEq

/-- The experimentally chosen minimum chunk size for the low-level pool. -/
def POOL_0_MIN_CHUNK_SIZE : Nat := 65536

/-- The `[begin, end)` pairs produced by the dispatch loop of
`ThreadPool::block_execution`: chunk `i` is
`(element_per_cpu * i, if i == cpu_usage - 1 then elements_count else element_per_cpu * (i+1))`. -/
def chunkList (cpu_usage element_per_cpu elements_count : Nat) : List (Nat × Nat) :=
  (List.range cpu_usage).map fun i =>
    (element_per_cpu * i,
     if i = cpu_usage - 1 then elements_count else element_per_cpu * (i + 1))

/-- The chunk ranges dispatched by `ThreadPool::block_execution`
(thread_pool.hpp).  `cpu_usage = max(1, min(elements_count, pool_size))`,
`element_per_cpu = elements_count / cpu_usage`; on the low-level pool, when
`element_per_cpu < POOL_0_MIN_CHUNK_SIZE`, the source recomputes
`cpu_usage = elements_count / POOL_0_MIN_CHUNK_SIZE + elements_count % POOL_0_MIN_CHUNK_SIZE ? 1 : 0`,
which by C++ precedence is
`(elements_count / 65536 + elements_count % 65536) ? 1 : 0`, and then
divides `elements_count / cpu_usage` again.  `none` models the division by
zero reached when that recomputed `cpu_usage` is `0`. -/
def block_execution_ranges (pool : PoolLevel) (elements_count pool_size : Nat) :
    Option (List (Nat × Nat)) :=
  let cpu_usage := max 1 (min elements_count pool_size)
  let element_per_cpu := elements_count / cpu_usage
  if pool = PoolLevel.low ∧ element_per_cpu < POOL_0_MIN_CHUNK_SIZE then
    let cpu_usage' :=
      if elements_count / POOL_0_MIN_CHUNK_SIZE + elements_count % POOL_0_MIN_CHUNK_SIZE ≠ 0
      then 1 else 0
    if cpu_usage' = 0 then none
    else some (chunkList cpu_usage' (elements_count / cpu_usage') elements_count)
  else
    some (chunkList cpu_usage element_per_cpu elements_count)

/-- The list of indices `parallel_for(start, stop, func)`
(parallelization_utils.hpp) calls `func` on, chunk tasks taken in submission
order and sequentially within a chunk: the chunk body runs
`for (i = start + range_begin; i < start + range_end; i++) func(i)`. -/
def parallel_for_calls (pool : PoolLevel) (start stop pool_size : Nat) :
    Option (List Nat) :=
  (block_execution_ranges pool (stop - start) pool_size).map fun rs =>
    (rs.map fun r => List.range' (start + r.1) (r.2 - r.1)).flatten

section GeometricDomain

variable {F : Type} [Field F] [DecidableEq F]

/-- The entries of the `geometric_sequence` vector built by
`do_precomputation`: `geometric_sequence[0] = 1`,
`geometric_sequence[i] = geometric_sequence[i-1] * geometric_generator`. -/
def geometric_sequence (g : F) : Nat → F
  | 0 => 1
  | i + 1 => geometric_sequence g i * g

/-- The entries of the `geometric_triangular_sequence` vector built by
`do_precomputation`: index 0 holds `1`, and
`geometric_triangular_sequence[i] = geometric_triangular_sequence[i-1] * geometric_sequence[i-1]`. -/
def geometric_triangular_sequence (g : F) : Nat → F
  | 0 => 1
  | i + 1 => geometric_triangular_sequence g i * geometric_sequence g i

/-- The precomputed `geometric_sequence` vector of length `m`. -/
def seqList (g : F) (m : Nat) : List F :=
  (List.range m).map (geometric_sequence g)

/-- The `T` accumulator built inside `fft`: `T[0] = 1`,
`T[i] = T[i-1] * (geometric_sequence[i] - 1).inversed()`.  The `prev_T`
accumulator of `inverse_fft` runs through the same values. -/
def fftT (g : F) : Nat → F
  | 0 => 1
  | i + 1 => fftT g i * (geometric_sequence g (i + 1) - 1)⁻¹

/-- The `T` vector built inside `inverse_fft`:
`T[i] = geometric_triangular_sequence[i] * prev_T`, negated when `i` is
odd (`T[0] = 1` falls out of the same formula since both factors are 1). -/
def invT (g : F) (i : Nat) : F :=
  if i % 2 = 1 then -(geometric_triangular_sequence g i * fftT g i)
  else geometric_triangular_sequence g i * fftT g i

/-- Modelled from the spec: the polynomial-multiplication primitive
`multiplication(c, a, b)` invoked by the domain (declared in
polynomial/basic_operations.hpp, which is not under src/) computes the
product of two polynomials given as coefficient vectors, lowest degree
first: the result has `a.size + b.size - 1` coefficients with
`c_k = sum_j a_j * b_(k-j)`. -/
def multiplication (x y : List F) : List F :=
  (List.range (x.length + y.length - 1)).map fun k =>
    ∑ j in Finset.range (k + 1), x.getD j 0 * y.getD (k - j) 0

/-- Quotient and remainder of dividing a coefficient list (lowest degree
first) by the monic linear polynomial `X - s`; helper for the Newton basis
change below. -/
def divLinear : List F → F → List F × F
  | [], _ => ([], 0)
  | [a], _ => ([], a)
  | a :: b :: rest, s =>
    let qr := divLinear (b :: rest) s
    (qr.2 :: qr.1, a + s * qr.2)

/-- Modelled from the spec: `monomial_to_newton_basis_geometric`
(polynomial/basis_change.hpp, not under src/) converts monomial
coefficients into coefficients over the Newton basis
`N_j(X) = prod_(k < j) (X - pts_k)` built from the geometric progression
points, here by repeated synthetic division: the remainder by `X - pts_0`
is the Newton coefficient of `N_0` and the quotient is converted against
the remaining points. -/
def monomial_to_newton_basis_geometric (a : List F) : List F → List F
  | [] => []
  | s :: ss =>
    (divLinear a s).2 :: monomial_to_newton_basis_geometric (divLinear a s).1 ss

/-- Coefficientwise sum of two coefficient lists (the shorter padded). -/
def addPoly : List F → List F → List F
  | [], y => y
  | a :: x, [] => a :: x
  | a :: x, b :: y => (a + b) :: addPoly x y

/-- Product of a coefficient list with the monic linear `X - s`. -/
def mulLinear (s : F) (p : List F) : List F :=
  match p with
  | [] => []
  | _ :: _ => addPoly (0 :: p) (p.map fun c => -s * c)

/-- Modelled from the spec: `newton_to_monomial_basis_geometric`
(polynomial/basis_change.hpp, not under src/) converts Newton-basis
coefficients over the geometric progression points back to monomial
coefficients, by Horner-style expansion
`p = b_0 + (X - pts_0) * (b_1 + (X - pts_1) * (...))`. -/
def newton_to_monomial_basis_geometric : List F → List F → List F
  | [], _ => []
  | b :: bs, [] => b :: bs
  | b :: bs, s :: ss => addPoly [b] (mulLinear s (newton_to_monomial_basis_geometric bs ss))

/-- The forward transform `geometric_sequence_domain::fft` on a coefficient
buffer `a`.  A buffer longer than `m` raises `std::invalid_argument`
(modelled as `none`); a shorter buffer is resized to `m` with zeros.  The
body converts to the Newton basis, builds the `T` accumulator and
`g[i] = geometric_triangular_sequence[i] * a[i]` (with `g[0] = a[0]`, equal
since `geometric_triangular_sequence[0] = 1`), multiplies `g` and `T` as
polynomials, truncates to `m` (`a.resize(this->m)`) and finally multiplies
entry `i` by `T[i].inversed()`. -/
def fft_body (g : F) (m : Nat) (a : List F) : List F :=
  let a1 := a ++ List.replicate (m - a.length) 0
  let b := monomial_to_newton_basis_geometric a1 (seqList g m)
  let Tl := (List.range m).map (fftT g)
  let gl := (List.range m).map fun i => geometric_triangular_sequence g i * b.getD i 0
  let c := (multiplication gl Tl).take m
  (List.range m).map fun i => c.getD i 0 * (fftT g i)⁻¹

def fft (g : F) (m : Nat) (a : List F) : Option (List F) :=
  if m < a.length then none else some (fft_body g m a)

/-- The inverse transform `geometric_sequence_domain::inverse_fft`.  Same
size contract as `fft`.  The body builds `W[i] = a[i] * prev_T` and the
sign-alternating `T` vector (`invT`), multiplies them as polynomials,
truncates to `m`, divides entry `i` by `geometric_triangular_sequence[i]`,
and converts from the Newton basis back to monomial coefficients. -/
def inverse_fft_body (g : F) (m : Nat) (a : List F) : List F :=
  let a1 := a ++ List.replicate (m - a.length) 0
  let Wl := (List.range m).map fun i => a1.getD i 0 * fftT g i
  let Tl := (List.range m).map (invT g)
  let c := (multiplication Wl Tl).take m
  let b := (List.range m).map fun i => c.getD i 0 * (geometric_triangular_sequence g i)⁻¹
  newton_to_monomial_basis_geometric b (seqList g m)

def inverse_fft (g : F) (m : Nat) (a : List F) : Option (List F) :=
  if m < a.length then none else some (inverse_fft_body g m a)

/-- The `geometric_sequence_domain` constructor: the base class records the
size `m` (evaluation_domain.hpp is not under src/; per the spec it only
fixes the immutable size), then the body throws `std::invalid_argument` if
`m <= 1` or if the field's `geometric_generator` is zero, and otherwise
clears `precomputation_sentinel`.  The result is the pair
`(m, precomputation_sentinel)`; `none` models the exception, with no
partial state escaping the failed construction. -/
def geometric_sequence_domain_mk (g : F) (m : Nat) : Option (Nat × Bool) :=
  if m ≤ 1 then none
  else if g = 0 then none
  else some (m, false)

/-- The loop of `geometric_sequence_domain::compute_vanishing_polynomial`:
`Z = prod_(i < m) (t - geometric_sequence[i])`, accumulated left to
right. -/
def compute_vanishing_polynomial (g : F) (m : Nat) (t : F) : F :=
  (List.range m).foldl (fun Z i => Z * (t - geometric_sequence g i)) 1

/-- The body of `geometric_sequence_domain::divide_by_z_on_coset`: every
`P[i]` with `i < m` is multiplied by the inverse of the vanishing
polynomial at the field's `multiplicative_generator` `c` (an external
per-field constant, a parameter here).  The source performs no size check
on `P`; indices `m` and beyond are left untouched, and a buffer shorter
than `m` would be written out of bounds (undefined behaviour, modelled as
`none`). -/
def divide_by_z_on_coset (g c : F) (m : Nat) (P : List F) : Option (List F) :=
  if P.length < m then none
  else
    let Z_inverse_at_coset := (compute_vanishing_polynomial g m c)⁻¹
    some (((P.take m).map fun p => p * Z_inverse_at_coset) ++ P.drop m)

/-- The body of `geometric_sequence_domain::add_poly_z`.  `H.size() != m+1`
raises `std::invalid_argument` (`none`); otherwise `x` starts as
`(X - geometric_sequence[0])` and the loop for `i = 1, ..., m` multiplies
`x` by `(X - geometric_sequence[i])` — reading `geometric_sequence[i]`
through `std::vector::operator[]`, which for `i = m` is one past the end of
the `m`-element vector (undefined behaviour, modelled via `List.get?` as
`none`) — and finally `H[i] += x[i] * coeff` for `i = 0, ..., m`. -/
def add_poly_z (g : F) (m : Nat) (coeff : F) (H : List F) : Option (List F) :=
  if H.length ≠ m + 1 then none
  else
    (seqList g m)[0]? |>.bind fun s0 =>
      ((List.range' 1 m).foldlM
        (fun x i => ((seqList g m)[i]?).map fun si => multiplication x [-si, 1])
        [-s0, 1]).map fun x =>
          (List.range (m + 1)).map fun i => H.getD i 0 + x.getD i 0 * coeff

/-- The scan opening `evaluate_all_lagrange_polynomials`: the first index
`i < m` with `geometric_sequence[i] == t`, if any. -/
def exactHit (g : F) (m : Nat) (t : F) : Option Nat :=
  (List.range m).find? fun i => decide (geometric_sequence g i = t)

/-- The `g` vector of the general branch of
`evaluate_all_lagrange_polynomials`: `g[0]` stays at the zero it was
initialised with, `g[i] = 1 - geometric_sequence[i]` for `i >= 1`. -/
def lagrangeGvec (g : F) (i : Nat) : F :=
  if i = 0 then 0 else 1 - geometric_sequence g i

/-- The `g_i` accumulator of the general branch:
`g_i[0] = g_vanish.inversed()` where
`g_vanish = prod_(1 <= i < m) g[i]`, and
`g_i[i] = g_i[i-1] * g[m-i] * -g[i].inversed() * geometric_sequence[i]`. -/
def lagrange_g_i (g : F) (m : Nat) : Nat → F
  | 0 => (∏ i in Finset.Ico 1 m, (1 - geometric_sequence g i))⁻¹
  | k + 1 =>
    lagrange_g_i g m k * lagrangeGvec g (m - (k + 1)) *
      -(lagrangeGvec g (k + 1))⁻¹ * geometric_sequence g (k + 1)

/-- `geometric_sequence_domain::evaluate_all_lagrange_polynomials(t)`.
If `t` equals some `geometric_sequence[i]`, the first such `i` receives `1`
and every other entry is `0`.  Otherwise the general barycentric branch
computes `l_vanish = prod_(i < m) (t - geometric_sequence[i])`,
`r = geometric_sequence[m-1].inversed()`, and returns
`l[0] = l_vanish * l[0].inversed() * g_i[0]` and
`l[i] = l_vanish * r^i * l[i].inversed() * g_i[i]` (the running `r_i`
equals `r^i` at step `i`), with `l[i] = t - geometric_sequence[i]`. -/
def evaluate_all_lagrange_polynomials (g : F) (m : Nat) (t : F) : List F :=
  match exactHit g m t with
  | some i => (List.range m).map fun j => if j = i then 1 else 0
  | none =>
    let l_vanish := ∏ i in Finset.range m, (t - geometric_sequence g i)
    let r := (geometric_sequence g (m - 1))⁻¹
    (List.range m).map fun i =>
      if i = 0 then l_vanish * (t - geometric_sequence g 0)⁻¹ * lagrange_g_i g m 0
      else l_vanish * r ^ i * (t - geometric_sequence g i)⁻¹ * lagrange_g_i g m i

/-- The arguments `evaluate_all_lagrange_polynomials` passes to the field
`.inversed()` operation, in evaluation order.  On an exact hit the early
return performs no inversion.  The general branch inverts
`geometric_sequence[m-1]` (for `r`), `g_vanish` (for `g_i[0]`),
`l[0] = t - geometric_sequence[0]`, and then for each `i = 1, ..., m-1`
both `g[i] = 1 - geometric_sequence[i]` (inside the `g_i` recurrence) and
`l[i] = t - geometric_sequence[i]`. -/
def lagrangeInvArgs (g : F) (m : Nat) (t : F) : List F :=
  match exactHit g m t with
  | some _ => []
  | none =>
    geometric_sequence g (m - 1) ::
    (∏ i in Finset.Ico 1 m, (1 - geometric_sequence g i)) ::
    (t - geometric_sequence g 0) ::
    ((List.range' 1 (m - 1)).map fun i =>
      [lagrangeGvec g i, t - geometric_sequence g i]).flatten

/-- Discrete convolution of two coefficient sequences; the algebraic core
of the `multiplication` primitive, used to reason about the Newton
evaluation and interpolation passes. -/
def seqConv (x y : Nat → F) (n : Nat) : F :=
  ∑ j in Finset.range (n + 1), x j * y (n - j)

end GeometricDomain

/-- Inverse table of the five-element field used for concrete witnesses and
counterexamples. -/
def f5inv : Fin 5 → Fin 5
  | 0 => 0
  | 1 => 1
  | 2 => 3
  | 3 => 2
  | 4 => 4

/-- The field with five elements, realised on `Fin 5` so that every field
operation (inverse included) evaluates by kernel reduction. -/
instance : Field (Fin 5) :=
  { (inferInstance : CommRing (Fin 5)) with
    inv := f5inv
    div := fun a b => a * f5inv b
    div_eq_mul_inv := fun _ _ => rfl
    exists_pair_ne := ⟨0, 1, by decide⟩
    mul_inv_cancel := by decide
    inv_zero := by decide
    nnqsmul := _
    qsmul := _ }

theorem chunkList_succ (cu epc n : Nat) :
    chunkList (cu + 1) epc n = chunkList cu epc (epc * cu) ++ [(epc * cu, n)] := by
  unfold chunkList
  rw [List.range_succ, List.map_append]
  congr 1
  · apply List.map_congr_left
    intro i hi
    rw [List.mem_range] at hi
    have h1 : i ≠ cu + 1 - 1 := by omega
    rw [if_neg h1]
    by_cases h2 : i = cu - 1
    · rcases Nat.eq_zero_or_pos cu with h3 | h3
      · omega
      · rw [if_pos h2]
        have : i + 1 = cu := by omega
        rw [this]
    · rw [if_neg h2]
  · simp

theorem chunk_flatten_exact (s : Nat) :
    ∀ cu epc : Nat,
      ((chunkList cu epc (epc * cu)).map fun r => List.range' (s + r.1) (r.2 - r.1)).flatten
        = List.range' s (epc * cu) := by
  intro cu
  induction cu with
  | zero => intro epc; simp [chunkList]
  | succ cu ih =>
      intro epc
      rw [chunkList_succ, List.map_append, List.flatten_append, ih]
      have h1 : epc * (cu + 1) - epc * cu = epc := by
        rw [Nat.mul_succ]; omega
      have h2 : epc * cu + epc = epc * (cu + 1) := by rw [Nat.mul_succ]
      simp only [List.map_cons, List.map_nil, List.flatten_cons, List.flatten_nil,
        List.append_nil, h1]
      rw [List.range'_append_1 s (epc * cu) epc]
      congr 1
      rw [Nat.mul_succ]
      omega

theorem chunk_flatten (cu epc n s : Nat) (hcu : 1 ≤ cu) (h : epc * (cu - 1) ≤ n) :
    ((chunkList cu epc n).map fun r => List.range' (s + r.1) (r.2 - r.1)).flatten
      = List.range' s n := by
  obtain ⟨cu', rfl⟩ : ∃ cu', cu = cu' + 1 := ⟨cu - 1, by omega⟩
  rw [chunkList_succ, List.map_append, List.flatten_append, chunk_flatten_exact]
  have h' : epc * cu' ≤ n := by simpa using h
  simp only [List.map_cons, List.map_nil, List.flatten_cons, List.flatten_nil,
    List.append_nil]
  rw [List.range'_append_1 s (epc * cu') (n - epc * cu')]
  congr 1
  omega

theorem chunkList_pairwise (cu epc n : Nat) :
    (chunkList cu epc n).Pairwise fun r r' => r.2 ≤ r'.1 := by
  unfold chunkList
  rw [List.pairwise_map]
  apply List.Pairwise.imp_of_mem (l := List.range cu) (R := (· < ·))
  · intro i j hi hj hij
    rw [List.mem_range] at hi hj
    have h1 : i ≠ cu - 1 := by omega
    simp only [if_neg h1]
    exact Nat.mul_le_mul_left epc (by omega)
  · exact List.pairwise_lt_range cu

theorem block_execution_ranges_eq_some (pool : PoolLevel) (n k : Nat)
    (h : pool = PoolLevel.high ∨ 0 < n) :
    ∃ cu epc, 1 ≤ cu ∧ epc * (cu - 1) ≤ n ∧
      block_execution_ranges pool n k = some (chunkList cu epc n) := by
  unfold block_execution_ranges
  by_cases hc : pool = PoolLevel.low ∧ n / max 1 (min n k) < POOL_0_MIN_CHUNK_SIZE
  · have hn : 0 < n := by
      rcases h with h | h
      · rw [h] at hc; exact absurd hc.1 (by simp)
      · exact h
    have hsum : n / POOL_0_MIN_CHUNK_SIZE + n % POOL_0_MIN_CHUNK_SIZE ≠ 0 := by
      unfold POOL_0_MIN_CHUNK_SIZE; omega
    refine ⟨1, n / 1, le_refl 1, by simp, ?_⟩
    rw [if_pos hc, if_pos hsum, if_neg one_ne_zero]
  · refine ⟨max 1 (min n k), n / max 1 (min n k), le_max_left 1 _, ?_, ?_⟩
    · calc n / max 1 (min n k) * (max 1 (min n k) - 1)
          ≤ n / max 1 (min n k) * max 1 (min n k) :=
            Nat.mul_le_mul_left _ (Nat.sub_le _ _)
        _ ≤ n := Nat.div_mul_le_self n _
    · rw [if_neg hc]

/-- Claim C2 counterexample: on the low-level pool with `elements_count = 0`
(and `pool_size = 4`), `block_execution` divides by zero instead of
dispatching ranges, so no partition of `[0, 0)` is dispatched. -/
theorem c2_counterexample : block_execution_ranges PoolLevel.low 0 4 = none := by
  decide

/-- Claim C2 (amended): whenever `block_execution` completes — which holds
for every `elements_count` on the high-level pool, and for every
`elements_count > 0` on the low-level pool (with `elements_count = 0` the
low-level chunk-floor branch divides by zero) — the dispatched
`[begin, end)` ranges are contiguous, pairwise disjoint, their
concatenation enumerates exactly the indices `0, ..., elements_count - 1`
with no index covered twice or omitted, and the sum of the chunk lengths is
`elements_count`. -/
theorem c2_block_execution_partition (pool : PoolLevel) (n k : Nat)
    (h : pool = PoolLevel.high ∨ 0 < n) :
    ∃ rs, block_execution_ranges pool n k = some rs ∧
      ((rs.map fun r => List.range' r.1 (r.2 - r.1)).flatten = List.range n ∧
       (rs.map fun r => r.2 - r.1).sum = n ∧
       rs.Pairwise fun r r' => r.2 ≤ r'.1) := by
  obtain ⟨cu, epc, hcu, hle, heq⟩ := block_execution_ranges_eq_some pool n k h
  refine ⟨chunkList cu epc n, heq, ?_, ?_, chunkList_pairwise cu epc n⟩
  · have hf := chunk_flatten cu epc n 0 hcu hle
    simp only [Nat.zero_add] at hf
    rw [hf, List.range_eq_range']
  · have hf := chunk_flatten cu epc n 0 hcu hle
    have hl := congrArg List.length hf
    simp only [List.length_flatten, List.map_map, Function.comp_def,
      List.length_range'] at hl
    exact hl

theorem c2_block_execution_partition_witness :
    (PoolLevel.low = PoolLevel.high ∨ 0 < 10) ∧
      (∃ rs, block_execution_ranges PoolLevel.low 10 4 = some rs ∧
        ((rs.map fun r => List.range' r.1 (r.2 - r.1)).flatten = List.range 10 ∧
         (rs.map fun r => r.2 - r.1).sum = 10 ∧
         rs.Pairwise fun r r' => r.2 ≤ r'.1)) :=
  ⟨Or.inr (by decide), c2_block_execution_partition PoolLevel.low 10 4 (Or.inr (by decide))⟩

/-- Claim C8: `block_execution` on the low-level pool with
`elements_count = 100` and `pool_size = 8` dispatches exactly one chunk
covering `[0, 100)` (not eight chunks), because `100 / 8` is below the
65536-element minimum chunk size of the low-level pool. -/
theorem c8_low_pool_chunk_floor :
    block_execution_ranges PoolLevel.low 100 8 = some [(0, 100)] := by
  decide

/-- Claim C9 counterexample: `parallel_for` over the empty range
`[0, 0)` on the default low-level pool hits the division by zero inside
`block_execution` instead of returning after zero calls, refuting the claim
for `start = end`. -/
theorem c9_counterexample : parallel_for_calls PoolLevel.low 0 0 8 = none := by
  decide

/-- Claim C9 (amended): for every `start < end` (and, on the high-level
pool, also `start = end`), `parallel_for(start, end, f)` calls `f(i)`
exactly once for every `i` in `[start, end)` and for no other index —
the concatenation of the chunk call sequences, chunks in submission order
and sequential within a chunk, is exactly `start, start+1, ..., end-1`.
With `start = end` on the low-level pool the claim fails: `block_execution`
divides by zero and `parallel_for` does not return normally. -/
theorem c9_parallel_for_calls_range (pool : PoolLevel) (s e k : Nat)
    (h : s < e ∨ pool = PoolLevel.high) :
    parallel_for_calls pool s e k = some (List.range' s (e - s)) := by
  obtain ⟨cu, epc, hcu, hle, heq⟩ := block_execution_ranges_eq_some pool (e - s) k
    (by rcases h with h | h
        · exact Or.inr (by omega)
        · exact Or.inl h)
  unfold parallel_for_calls
  rw [heq, Option.map_some']
  rw [chunk_flatten cu epc (e - s) s hcu hle]

theorem c9_parallel_for_calls_range_witness :
    ((0 : Nat) < 3 ∨ PoolLevel.low = PoolLevel.high) ∧
      parallel_for_calls PoolLevel.low 0 3 2 = some (List.range' 0 (3 - 0)) :=
  ⟨Or.inl (by decide), c9_parallel_for_calls_range PoolLevel.low 0 3 2 (Or.inl (by decide))⟩

/-- Claim C10: `block_execution` with `elements_count = 0` on the low-level
pool reaches a division by zero for every pool size: the chunk-floor branch
triggers (`0 / max(1, min(0, pool_size)) = 0 < 65536`), the recomputed
`cpu_usage` conditional evaluates to `0`, and `elements_count / cpu_usage`
divides by zero instead of producing an empty future list; consequently
`parallel_for` over any empty range on the default low-level pool hits the
same division by zero instead of completing normally. -/
theorem c10_block_execution_empty_div_crash :
    (∀ k, block_execution_ranges PoolLevel.low 0 k = none) ∧
      ∀ s k, parallel_for_calls PoolLevel.low s s k = none := by
  constructor
  · intro k
    simp [block_execution_ranges, POOL_0_MIN_CHUNK_SIZE, Nat.zero_div]
  · intro s k
    unfold parallel_for_calls
    rw [Nat.sub_self]
    simp [block_execution_ranges, POOL_0_MIN_CHUNK_SIZE, Nat.zero_div]

section GeometricLemmas

variable {F : Type} [Field F]

theorem geometric_sequence_eq_pow (g : F) : ∀ i, geometric_sequence g i = g ^ i
  | 0 => by simp [geometric_sequence]
  | i + 1 => by
      rw [geometric_sequence, geometric_sequence_eq_pow g i, pow_succ]

theorem geometric_sequence_ne_zero {g : F} (hg : g ≠ 0) (i : Nat) :
    geometric_sequence g i ≠ 0 := by
  rw [geometric_sequence_eq_pow]
  exact pow_ne_zero i hg

theorem geometric_triangular_sequence_ne_zero {g : F} (hg : g ≠ 0) :
    ∀ i, geometric_triangular_sequence g i ≠ 0
  | 0 => one_ne_zero
  | i + 1 =>
      mul_ne_zero (geometric_triangular_sequence_ne_zero hg i)
        (geometric_sequence_ne_zero hg i)

theorem fftT_ne_zero {g : F} : ∀ {n : Nat}, (∀ l, 1 ≤ l → l ≤ n → g ^ l ≠ 1) →
    fftT g n ≠ 0
  | 0, _ => one_ne_zero
  | n + 1, h => by
      rw [fftT]
      refine mul_ne_zero (fftT_ne_zero fun l h1 h2 => h l h1 (by omega)) ?_
      refine inv_ne_zero (sub_ne_zero.mpr ?_)
      rw [geometric_sequence_eq_pow]
      exact h (n + 1) (by omega) (by omega)

theorem fftT_succ_mul (g : F) (k : Nat) (h : g ^ (k + 1) ≠ 1) :
    fftT g (k + 1) * (g ^ (k + 1) - 1) = fftT g k := by
  rw [fftT, geometric_sequence_eq_pow, mul_assoc,
    inv_mul_cancel₀ (sub_ne_zero.mpr h), mul_one]

theorem invT_eq_sign (g : F) (i : Nat) :
    invT g i = (-1) ^ i * (geometric_triangular_sequence g i * fftT g i) := by
  unfold invT
  by_cases h : i % 2 = 1
  · rw [if_pos h, (Nat.odd_iff.mpr h).neg_one_pow]
    ring
  · rw [if_neg h, (Nat.even_iff.mpr (by omega)).neg_one_pow]
    ring

theorem invT_zero (g : F) : invT g 0 = 1 := by
  simp [invT, geometric_triangular_sequence, fftT]

theorem invT_succ_mul (g : F) (j : Nat) (h : g ^ (j + 1) ≠ 1) :
    invT g (j + 1) * (g ^ (j + 1) - 1) = -(g ^ j * invT g j) := by
  rw [invT_eq_sign, invT_eq_sign]
  have h1 : geometric_triangular_sequence g (j + 1)
      = geometric_triangular_sequence g j * g ^ j := by
    rw [geometric_triangular_sequence, geometric_sequence_eq_pow]
  have h2 : (-1 : F) ^ (j + 1) = -(-1) ^ j := by rw [pow_succ]; ring
  calc (-1) ^ (j + 1) * (geometric_triangular_sequence g (j + 1) * fftT g (j + 1))
        * (g ^ (j + 1) - 1)
      = -(-1) ^ j * (geometric_triangular_sequence g j * g ^ j
          * (fftT g (j + 1) * (g ^ (j + 1) - 1))) := by rw [h1, h2]; ring
    _ = -(g ^ j * ((-1) ^ j * (geometric_triangular_sequence g j * fftT g j))) := by
        rw [fftT_succ_mul g j h]; ring

theorem seqConv_fftT_invT_rec (g : F) (n : Nat)
    (h : ∀ l, 1 ≤ l → l ≤ n + 1 → g ^ l ≠ 1) :
    (g ^ (n + 1) - 1) * seqConv (fftT g) (invT g) (n + 1)
      = (1 - g ^ n) * seqConv (fftT g) (invT g) n := by
  have hsplit : ∀ j ∈ Finset.range (n + 2),
      (g ^ (n + 1) - 1) * (fftT g j * invT g (n + 1 - j))
        = (fftT g j * (g ^ j - 1)) * invT g (n + 1 - j)
          + g ^ j * fftT g j * (invT g (n + 1 - j) * (g ^ (n + 1 - j) - 1)) := by
    intro j hj
    rw [Finset.mem_range] at hj
    have hpow : g ^ j * g ^ (n + 1 - j) = g ^ (n + 1) := by
      rw [← pow_add]
      congr 1
      omega
    linear_combination -(fftT g j * invT g (n + 1 - j)) * hpow
  unfold seqConv
  rw [Finset.mul_sum, Finset.sum_congr rfl hsplit, Finset.sum_add_distrib]
  have hA : (∑ j in Finset.range (n + 2),
      (fftT g j * (g ^ j - 1)) * invT g (n + 1 - j))
        = ∑ i in Finset.range (n + 1), fftT g i * invT g (n - i) := by
    rw [Finset.sum_range_succ']
    have h0 : (fftT g 0 * (g ^ 0 - 1)) * invT g (n + 1 - 0) = 0 := by
      simp [fftT]
    rw [h0, add_zero]
    refine Finset.sum_congr rfl fun i hi => ?_
    rw [Finset.mem_range] at hi
    have hs : n + 1 - (i + 1) = n - i := by omega
    rw [hs, mul_comm (fftT g (i + 1)) (g ^ (i + 1) - 1),
      mul_comm (g ^ (i + 1) - 1) (fftT g (i + 1)), fftT_succ_mul g i
        (h (i + 1) (by omega) (by omega))]
  have hB : (∑ j in Finset.range (n + 2),
      g ^ j * fftT g j * (invT g (n + 1 - j) * (g ^ (n + 1 - j) - 1)))
        = -(g ^ n * ∑ i in Finset.range (n + 1), fftT g i * invT g (n - i)) := by
    rw [Finset.sum_range_succ]
    have hlast : g ^ (n + 1) * fftT g (n + 1)
        * (invT g (n + 1 - (n + 1)) * (g ^ (n + 1 - (n + 1)) - 1)) = 0 := by
      simp
    rw [hlast, add_zero]
    have hcong : ∀ j ∈ Finset.range (n + 1),
        g ^ j * fftT g j * (invT g (n + 1 - j) * (g ^ (n + 1 - j) - 1))
          = -(g ^ n * (fftT g j * invT g (n - j))) := by
      intro j hj
      rw [Finset.mem_range] at hj
      have hs : n + 1 - j = (n - j) + 1 := by omega
      rw [hs, invT_succ_mul g (n - j) (h ((n - j) + 1) (by omega) (by omega))]
      have hpow : g ^ j * g ^ (n - j) = g ^ n := by
        rw [← pow_add]
        congr 1
        omega
      linear_combination -(fftT g j * invT g (n - j)) * hpow
    rw [Finset.sum_congr rfl hcong, Finset.sum_neg_distrib, Finset.mul_sum]
  rw [hA, hB]
  ring

theorem seqConv_fftT_invT (g : F) :
    ∀ n, (∀ l, 1 ≤ l → l ≤ n → g ^ l ≠ 1) →
      seqConv (fftT g) (invT g) n = if n = 0 then 1 else 0
  | 0, _ => by simp [seqConv, fftT, invT_zero]
  | n + 1, h => by
      have hrec := seqConv_fftT_invT_rec g n h
      have hprev : (1 - g ^ n) * seqConv (fftT g) (invT g) n = 0 := by
        rcases Nat.eq_zero_or_pos n with h0 | h0
        · subst h0; simp
        · rw [seqConv_fftT_invT g n fun l h1 h2 => h l h1 (by omega),
            if_neg (by omega)]
          ring
      rw [hprev] at hrec
      have hne : g ^ (n + 1) - 1 ≠ 0 :=
        sub_ne_zero.mpr (h (n + 1) (by omega) (by omega))
      rw [if_neg (by omega)]
      rcases mul_eq_zero.mp hrec with hc | hc
      · exact absurd hc hne
      · exact hc

end GeometricLemmas

section ConvLemmas

variable {F : Type} [Field F]

theorem seqConv_eq_coeff (x y : Nat → F) (n : Nat) :
    seqConv x y n = PowerSeries.coeff F n (PowerSeries.mk x * PowerSeries.mk y) := by
  rw [PowerSeries.coeff_mul, Finset.Nat.sum_antidiagonal_eq_sum_range_succ_mk]
  unfold seqConv
  simp [PowerSeries.coeff_mk]

theorem mk_seqConv (x y : Nat → F) :
    PowerSeries.mk (seqConv x y) = PowerSeries.mk x * PowerSeries.mk y := by
  ext n
  rw [PowerSeries.coeff_mk, seqConv_eq_coeff]

theorem seqConv_assoc (x y z : Nat → F) (n : Nat) :
    seqConv (seqConv x y) z n = seqConv x (seqConv y z) n := by
  rw [seqConv_eq_coeff, seqConv_eq_coeff, mk_seqConv, mk_seqConv, mul_assoc]

theorem seqConv_congr {x x' y y' : Nat → F} {n : Nat}
    (hx : ∀ j, j ≤ n → x j = x' j) (hy : ∀ j, j ≤ n → y j = y' j) :
    seqConv x y n = seqConv x' y' n := by
  refine Finset.sum_congr rfl fun j hj => ?_
  rw [Finset.mem_range] at hj
  rw [hx j (by omega), hy (n - j) (by omega)]

/-- The Newton-to-evaluation pass of `fft` followed by the
evaluation-to-Newton pass of `inverse_fft` returns every Newton coefficient
unchanged: `v` is the evaluation buffer produced by `fft` from Newton
coefficients `b`, and the `inverse_fft` middle pipeline applied to `v`
recovers `b i` whenever the first `m` domain elements are distinct. -/
theorem mid_inverse (g : F) (m : Nat) (hg : g ≠ 0)
    (h : ∀ l, 1 ≤ l → l < m → g ^ l ≠ 1) (b v : Nat → F) (i : Nat) (hi : i < m)
    (hv : ∀ j, j ≤ i → v j
      = seqConv (fun k => geometric_triangular_sequence g k * b k) (fftT g) j
          * (fftT g j)⁻¹) :
    seqConv (fun j => v j * fftT g j) (invT g) i
      * (geometric_triangular_sequence g i)⁻¹ = b i := by
  have h1 : ∀ j, j ≤ i → v j * fftT g j
      = seqConv (fun k => geometric_triangular_sequence g k * b k) (fftT g) j := by
    intro j hj
    rw [hv j hj, mul_assoc,
      inv_mul_cancel₀ (fftT_ne_zero fun l hl1 hl2 => h l hl1 (by omega)), mul_one]
  rw [seqConv_congr h1 fun _ _ => rfl, seqConv_assoc]
  have h3 : seqConv (fun k => geometric_triangular_sequence g k * b k)
      (seqConv (fftT g) (invT g)) i = geometric_triangular_sequence g i * b i := by
    rw [seqConv]
    rw [Finset.sum_eq_single i]
    · rw [Nat.sub_self, seqConv_fftT_invT g 0 (by intro l hl1 hl2; omega)]
      simp
    · intro k hk hki
      rw [Finset.mem_range] at hk
      rw [seqConv_fftT_invT g (i - k) fun l hl1 hl2 => h l hl1 (by omega),
        if_neg (by omega)]
      ring
    · intro hmem
      exact absurd (Finset.self_mem_range_succ i) hmem
  rw [h3, mul_comm (geometric_triangular_sequence g i) (b i), mul_assoc,
    mul_inv_cancel₀ (geometric_triangular_sequence_ne_zero hg i), mul_one]

end ConvLemmas

section ListLemmas

theorem getD_map_range {α : Type} (f : Nat → α) (d : α) {i m : Nat} (h : i < m) :
    ((List.range m).map f).getD i d = f i := by
  rw [List.getD_eq_getElem?_getD, List.getElem?_map, List.getElem?_range h]
  rfl

theorem getD_take {α : Type} (l : List α) (d : α) {i n : Nat} (h : i < n) :
    (l.take n).getD i d = l.getD i d := by
  rw [List.getD_eq_getElem?_getD, List.getD_eq_getElem?_getD, List.getElem?_take,
    if_pos h]

end ListLemmas

section BasisChangeLemmas

variable {F : Type} [Field F]

theorem multiplication_getD {x y : List F} {k : Nat}
    (h : k < x.length + y.length - 1) :
    (multiplication x y).getD k 0
      = ∑ j in Finset.range (k + 1), x.getD j 0 * y.getD (k - j) 0 := by
  unfold multiplication
  rw [getD_map_range _ _ h]

theorem divLinear_length : ∀ (a : List F) (s : F),
    (divLinear a s).1.length = a.length - 1
  | [], _ => rfl
  | [_], _ => rfl
  | _ :: b :: rest, s => by
      have ih := divLinear_length (b :: rest) s
      simp only [divLinear, List.length_cons] at ih ⊢
      omega

theorem mulLinear_cons (s p0 : F) (pt : List F) :
    mulLinear s (p0 :: pt) = (-s * p0) :: addPoly (p0 :: pt) (pt.map fun c => -s * c) := by
  show addPoly (0 :: p0 :: pt) ((p0 :: pt).map fun c => -s * c) = _
  simp only [List.map_cons, addPoly, zero_add]

theorem addPoly_shift (s r : F) (q : List F) :
    addPoly (r :: q) (q.map fun c => -s * c) = addPoly [r] (mulLinear s q) := by
  cases q with
  | nil => simp [mulLinear, addPoly]
  | cons q0 qt =>
      rw [mulLinear_cons]
      simp only [List.map_cons, addPoly]

theorem divLinear_recomb : ∀ (a : List F) (s : F), a ≠ [] →
    addPoly [(divLinear a s).2] (mulLinear s (divLinear a s).1) = a
  | [], _, h => absurd rfl h
  | [a], s, _ => by simp [divLinear, mulLinear, addPoly]
  | a :: b :: rest, s, _ => by
      have ih := divLinear_recomb (b :: rest) s (by simp)
      show addPoly [a + s * (divLinear (b :: rest) s).2]
        (mulLinear s ((divLinear (b :: rest) s).2 :: (divLinear (b :: rest) s).1))
          = a :: b :: rest
      rw [mulLinear_cons]
      simp only [addPoly]
      rw [addPoly_shift, ih]
      congr 1
      ring

theorem monomial_to_newton_length : ∀ (pts a : List F),
    (monomial_to_newton_basis_geometric a pts).length = pts.length
  | [], _ => rfl
  | s :: ss, a => by
      simp [monomial_to_newton_basis_geometric, monomial_to_newton_length ss]

theorem newton_to_monomial_of_monomial_to_newton : ∀ (pts a : List F),
    a.length = pts.length →
    newton_to_monomial_basis_geometric (monomial_to_newton_basis_geometric a pts) pts
      = a
  | [], [], _ => rfl
  | [], _ :: _, h => by simp at h
  | s :: ss, a, h => by
      have ha : a ≠ [] := by
        intro h'
        subst h'
        simp at h
      have hlen : (divLinear a s).1.length = ss.length := by
        rw [divLinear_length]
        simp only [List.length_cons] at h
        omega
      show newton_to_monomial_basis_geometric
        ((divLinear a s).2 ::
          monomial_to_newton_basis_geometric (divLinear a s).1 ss) (s :: ss) = a
      rw [newton_to_monomial_basis_geometric,
        newton_to_monomial_of_monomial_to_newton ss (divLinear a s).1 hlen]
      exact divLinear_recomb a s ha

end BasisChangeLemmas

section RoundTripLemmas

variable {F : Type} [Field F]

theorem fft_eq_some (g : F) (m : Nat) (a : List F) (ha : a.length ≤ m) :
    fft g m a = some (fft_body g m a) := by
  rw [fft, if_neg (by omega)]

theorem fft_body_length (g : F) (m : Nat) (a : List F) :
    (fft_body g m a).length = m := by
  simp [fft_body]

theorem fft_body_getD (g : F) (m : Nat) (a : List F) (hm : 0 < m)
    (ha : a.length = m) {i : Nat} (hi : i < m) :
    (fft_body g m a).getD i 0 = seqConv
      (fun k => geometric_triangular_sequence g k *
        (monomial_to_newton_basis_geometric a (seqList g m)).getD k 0)
      (fftT g) i * (fftT g i)⁻¹ := by
  have hpad : a ++ List.replicate (m - a.length) 0 = a := by
    rw [ha, Nat.sub_self, List.replicate_zero, List.append_nil]
  simp only [fft_body, hpad]
  rw [getD_map_range _ _ hi, getD_take _ _ hi, multiplication_getD (by simp; omega)]
  refine congrArg (· * (fftT g i)⁻¹) ?_
  refine Finset.sum_congr rfl fun j hj => ?_
  rw [Finset.mem_range] at hj
  rw [getD_map_range _ _ (by omega : j < m),
    getD_map_range _ _ (by omega : i - j < m)]

theorem inverse_fft_eq_some (g : F) (m : Nat) (v : List F) (hv : v.length ≤ m) :
    inverse_fft g m v = some (inverse_fft_body g m v) := by
  rw [inverse_fft, if_neg (by omega)]

theorem inverse_fft_body_eq (g : F) (m : Nat) (v : List F) (hm : 0 < m)
    (hv : v.length = m) :
    ∃ bl, inverse_fft_body g m v
        = newton_to_monomial_basis_geometric bl (seqList g m) ∧
      bl.length = m ∧ ∀ i, i < m →
        bl.getD i 0 = seqConv (fun j => v.getD j 0 * fftT g j) (invT g) i
          * (geometric_triangular_sequence g i)⁻¹ := by
  have hpad : v ++ List.replicate (m - v.length) 0 = v := by
    rw [hv, Nat.sub_self, List.replicate_zero, List.append_nil]
  refine ⟨_, rfl, by simp [inverse_fft_body], ?_⟩
  intro i hi
  simp only [hpad]
  rw [getD_map_range _ _ hi, getD_take _ _ hi, multiplication_getD (by simp; omega)]
  refine congrArg (· * (geometric_triangular_sequence g i)⁻¹) ?_
  refine Finset.sum_congr rfl fun j hj => ?_
  rw [Finset.mem_range] at hj
  rw [getD_map_range _ _ (by omega : j < m),
    getD_map_range _ _ (by omega : i - j < m)]

theorem seqList_inj_on {g : F} {m : Nat} (hd : (seqList g m).Nodup) :
    ∀ j k, j < m → k < m → geometric_sequence g j = geometric_sequence g k
      → j = k := by
  rw [seqList] at hd
  have hinj := (List.nodup_map_iff_inj_on (List.nodup_range m)).mp hd
  intro j k hj hk h
  exact hinj j (List.mem_range.mpr hj) k (List.mem_range.mpr hk) h

theorem pow_ne_one_of_nodup {g : F} {m : Nat} (hd : (seqList g m).Nodup) :
    ∀ l, 1 ≤ l → l < m → g ^ l ≠ 1 := by
  intro l h1 h2 hl
  have h0 : geometric_sequence g l = geometric_sequence g 0 := by
    rw [geometric_sequence_eq_pow, hl, geometric_sequence]
  have := seqList_inj_on hd l 0 h2 (by omega) h0
  omega

end RoundTripLemmas

/-- Claim C1 counterexample: with only non-zeroness required of the
generator the round trip fails.  Over the five-element field the generator
`4` is non-zero but `4^2 = 1`, so for `m = 3` the domain elements repeat
(`1, 4, 1`) and `inverse_fft (fft [0, 0, 1]) = [2, 0, 4] ≠ [0, 0, 1]`. -/
theorem c1_counterexample :
    (4 : Fin 5) ≠ 0 ∧
      (fft (4 : Fin 5) 3 [0, 0, 1]).bind (inverse_fft 4 3) ≠ some [0, 0, 1] := by
  decide

/-- Claim C1 (amended): for every domain size `m > 1` whose non-zero
geometric generator additionally yields pairwise distinct domain elements
`g^0, ..., g^(m-1)` — the domain invariant; a non-zero generator of
multiplicative order below `m` breaks the round trip, see the
counterexample — and every coefficient vector `a` of length `m`,
`inverse_fft(fft(a))` returns exactly `a`, elementwise. -/
theorem c1_fft_inverse_fft_roundtrip (g : F) [Field F] (m : Nat) (hm : 1 < m)
    (hg : g ≠ 0) (hd : (seqList g m).Nodup) (a : List F) (ha : a.length = m) :
    (fft g m a).bind (inverse_fft g m) = some a := by
  have hne := pow_ne_one_of_nodup hd
  have hm0 : 0 < m := by omega
  rw [fft_eq_some g m a (by omega), Option.some_bind,
    inverse_fft_eq_some g m _ (by rw [fft_body_length])]
  obtain ⟨bl, hbl_eq, hbl_len, hbl⟩ :=
    inverse_fft_body_eq g m (fft_body g m a) hm0 (fft_body_length g m a)
  rw [hbl_eq]
  have hb_len : (monomial_to_newton_basis_geometric a (seqList g m)).length = m := by
    rw [monomial_to_newton_length]
    simp [seqList]
  have hbl_eq_b : bl = monomial_to_newton_basis_geometric a (seqList g m) := by
    apply List.ext_get (by rw [hbl_len, hb_len])
    intro n h1 h2
    rw [List.get_eq_getElem, List.get_eq_getElem, ← List.getD_eq_getElem bl 0 h1,
      ← List.getD_eq_getElem _ 0 h2]
    have hn : n < m := by rw [hbl_len] at h1; exact h1
    rw [hbl n hn]
    exact mid_inverse g m hg hne
      (fun k => (monomial_to_newton_basis_geometric a (seqList g m)).getD k 0)
      (fun j => (fft_body g m a).getD j 0) n hn
      (fun j hj => fft_body_getD g m a hm0 ha (by omega))
  rw [hbl_eq_b,
    newton_to_monomial_of_monomial_to_newton _ a (by simp [seqList, ha])]

theorem c1_fft_inverse_fft_roundtrip_witness :
    ((1 : Nat) < 3 ∧ (2 : Fin 5) ≠ 0 ∧ (seqList (2 : Fin 5) 3).Nodup ∧
        ([1, 2, 3] : List (Fin 5)).length = 3) ∧
      (fft (2 : Fin 5) 3 [1, 2, 3]).bind (inverse_fft 2 3) = some [1, 2, 3] :=
  ⟨⟨by decide, by decide, by decide, by decide⟩,
    c1_fft_inverse_fft_roundtrip 2 3 (by decide) (by decide) (by decide)
      [1, 2, 3] (by decide)⟩

/-- Claim C7: constructing a `geometric_sequence_domain` raises
`std::invalid_argument` exactly when the requested size `m` is at most 1 or
the field's geometric generator is zero; on the error path no domain state
is produced, and on success the recorded size is `m` and the precomputation
sentinel starts out false. -/
theorem c7_constructor_contract {F : Type} [Field F] [DecidableEq F]
    (g : F) (m : Nat) :
    (geometric_sequence_domain_mk g m = none ↔ m ≤ 1 ∨ g = 0) ∧
      ∀ st, geometric_sequence_domain_mk g m = some st
        → 1 < m ∧ g ≠ 0 ∧ st = (m, false) := by
  unfold geometric_sequence_domain_mk
  by_cases h1 : m ≤ 1
  · rw [if_pos h1]
    refine ⟨⟨fun _ => Or.inl h1, fun _ => rfl⟩, fun st hst => by simp at hst⟩
  · rw [if_neg h1]
    by_cases h2 : g = 0
    · rw [if_pos h2]
      refine ⟨⟨fun _ => Or.inr h2, fun _ => rfl⟩, fun st hst => by simp at hst⟩
    · rw [if_neg h2]
      refine ⟨⟨fun h => by simp at h, fun h => ?_⟩, fun st hst => ?_⟩
      · rcases h with h | h
        · exact absurd h h1
        · exact absurd h h2
      · exact ⟨by omega, h2, (Option.some_inj.mp hst).symm⟩

theorem c7_constructor_contract_witness :
    (geometric_sequence_domain_mk (2 : Fin 5) 3 = none ↔ 3 ≤ 1 ∨ (2 : Fin 5) = 0) ∧
      ∀ st, geometric_sequence_domain_mk (2 : Fin 5) 3 = some st
        → 1 < 3 ∧ (2 : Fin 5) ≠ 0 ∧ st = (3, false) :=
  c7_constructor_contract 2 3

/-- Claim C5 counterexample: `divide_by_z_on_coset` performs no size check:
with domain size `m = 2` and a buffer of length 3 it returns normally with
the first two entries scaled, instead of failing with `SizeMismatch`. -/
theorem c5_counterexample :
    divide_by_z_on_coset (2 : Fin 5) 3 2 [1, 1, 1] = some [3, 3, 1] := by
  decide

/-- Claim C5 (amended): `fft` and `inverse_fft` fail with `SizeMismatch`
exactly when the input buffer is longer than `m` — the check precedes any
modification, so the buffer is untouched — and otherwise proceed on the
buffer zero-padded to length `m`.  `divide_by_z_on_coset`, however,
performs no size check at all: any buffer of length at least `m` is
accepted and its first `m` entries are scaled by the inverse of the
vanishing polynomial at the coset generator (a buffer shorter than `m`
would be an out-of-bounds write). -/
theorem c5_size_contract {F : Type} [Field F] (g c : F) (m : Nat)
    (a P : List F) :
    (m < a.length → fft g m a = none ∧ inverse_fft g m a = none) ∧
      (a.length ≤ m → fft g m a = some (fft_body g m a) ∧
        inverse_fft g m a = some (inverse_fft_body g m a)) ∧
      (m ≤ P.length → divide_by_z_on_coset g c m P
        = some (((P.take m).map fun p =>
            p * (compute_vanishing_polynomial g m c)⁻¹) ++ P.drop m)) := by
  refine ⟨fun h => ⟨?_, ?_⟩, fun h => ⟨fft_eq_some g m a h,
    inverse_fft_eq_some g m a h⟩, fun h => ?_⟩
  · rw [fft, if_pos h]
  · rw [inverse_fft, if_pos h]
  · rw [divide_by_z_on_coset, if_neg (by omega)]

theorem c5_size_contract_witness :
    ((2 : Nat) < ([1, 2, 3] : List (Fin 5)).length
      → fft (2 : Fin 5) 2 [1, 2, 3] = none ∧ inverse_fft (2 : Fin 5) 2 [1, 2, 3] = none) ∧
      (([1, 2, 3] : List (Fin 5)).length ≤ 2
        → fft (2 : Fin 5) 2 [1, 2, 3] = some (fft_body 2 2 [1, 2, 3]) ∧
          inverse_fft (2 : Fin 5) 2 [1, 2, 3] = some (inverse_fft_body 2 2 [1, 2, 3])) ∧
      ((2 : Nat) ≤ ([1, 1, 1] : List (Fin 5)).length
        → divide_by_z_on_coset (2 : Fin 5) 3 2 [1, 1, 1]
          = some ((([1, 1, 1] : List (Fin 5)).take 2).map (fun p =>
              p * (compute_vanishing_polynomial (2 : Fin 5) 2 3)⁻¹) ++
                ([1, 1, 1] : List (Fin 5)).drop 2)) :=
  c5_size_contract 2 3 2 [1, 2, 3] [1, 1, 1]

/-- Claim C6: the main path of `add_poly_z` is unreachable without
undefined behaviour: for every domain size `m ≥ 1` and every buffer `H` of
the contractual size `m + 1`, the factor loop runs `i = 1, ..., m`
inclusive and at `i = m` reads `geometric_sequence[m]`, one past the end of
the `m`-element precomputed vector, instead of accumulating
`coeff * Z` for the degree-`m` vanishing polynomial `Z` as the claim
states. -/
theorem c6_add_poly_z_oob {F : Type} [Field F] (g : F) (m : Nat) (hm : 1 ≤ m)
    (coeff : F) (H : List F) (hH : H.length = m + 1) :
    add_poly_z g m coeff H = none := by
  rw [add_poly_z, if_neg (by omega)]
  have h0 : (seqList g m)[0]? = some (geometric_sequence g 0) := by
    rw [seqList, List.getElem?_map, List.getElem?_range (by omega)]
    rfl
  rw [h0, Option.some_bind]
  obtain ⟨m', rfl⟩ : ∃ m', m = m' + 1 := ⟨m - 1, by omega⟩
  rw [List.range'_concat, List.foldlM_append]
  have hnone : ∀ x : List F,
      ((seqList g (m' + 1))[1 + 1 * m']?).map
        (fun si => multiplication x [-si, 1]) = none := by
    intro x
    rw [List.getElem?_eq_none (by simp [seqList]; omega)]
    rfl
  rcases hfold : (List.range' 1 m').foldlM
      (fun x i => ((seqList g (m' + 1))[i]?).map fun si => multiplication x [-si, 1])
      [-geometric_sequence g 0, 1] with _ | x
  · rfl
  · show (Option.map _ ((some x).bind _)) = none
    rw [Option.some_bind, List.foldlM_cons, hnone x]
    rfl

theorem c6_add_poly_z_oob_witness :
    ((1 : Nat) ≤ 2 ∧ ([0, 0, 0] : List (Fin 5)).length = 2 + 1) ∧
      add_poly_z (2 : Fin 5) 2 1 [0, 0, 0] = none :=
  ⟨⟨by decide, by decide⟩,
    c6_add_poly_z_oob 2 2 (by decide) 1 [0, 0, 0] (by decide)⟩

section LagrangeLemmas

variable {F : Type} [Field F] [DecidableEq F]

theorem find?_eq_of_first {α : Type} (p : α → Bool) :
    ∀ (l : List α) (k : Nat) (hk : k < l.length),
      (∀ j (hj : j < l.length), j < k → p (l.get ⟨j, hj⟩) = false) →
      p (l.get ⟨k, hk⟩) = true → l.find? p = some (l.get ⟨k, hk⟩)
  | [], k, hk, _, _ => absurd hk (by simp)
  | a :: t, 0, _, _, hp => List.find?_cons_of_pos t hp
  | a :: t, k + 1, hk, hfirst, hp => by
      have ha : p a = false := hfirst 0 (by simp) (by omega)
      rw [List.find?_cons_of_neg t (by rw [ha]; simp)]
      have hk' : k < t.length := by simpa using hk
      have hp' : p (t.get ⟨k, hk'⟩) = true := by
        rw [← hp, List.get_cons_succ]
      have hfirst' : ∀ j (hj : j < t.length), j < k → p (t.get ⟨j, hj⟩) = false := by
        intro j hj hjk
        have := hfirst (j + 1) (by simpa using hj) (by omega)
        rwa [List.get_cons_succ] at this
      rw [find?_eq_of_first p t k hk' hfirst' hp']
      congr 1

theorem exactHit_self {g : F} {m i : Nat} (hi : i < m)
    (hd : (seqList g m).Nodup) :
    exactHit g m (geometric_sequence g i) = some i := by
  unfold exactHit
  have hlen : i < (List.range m).length := by simpa using hi
  have h := find?_eq_of_first
    (fun j => decide (geometric_sequence g j = geometric_sequence g i))
    (List.range m) i hlen ?_ ?_
  · rw [h, List.get_eq_getElem, List.getElem_range]
  · intro j hj hjk
    rw [List.get_eq_getElem, List.getElem_range]
    simp only [decide_eq_false_iff_not]
    intro hcontra
    have := seqList_inj_on hd j i (by simpa using hj) hi hcontra
    omega
  · rw [List.get_eq_getElem, List.getElem_range]
    simp

theorem exactHit_none_iff {g : F} {m : Nat} {t : F} :
    exactHit g m t = none ↔ ∀ i, i < m → geometric_sequence g i ≠ t := by
  unfold exactHit
  rw [List.find?_eq_none]
  constructor
  · intro h i hi
    have := h i (List.mem_range.mpr hi)
    simpa using this
  · intro h x hx
    rw [List.mem_range] at hx
    simpa using h x hx

end LagrangeLemmas

/-- Claim C3 counterexample: without distinct domain elements the unit
property fails.  Over the five-element field with generator `4` (non-zero,
order 2) and `m = 3`, the domain elements are `1, 4, 1`; for `i = 2` the
exact-hit scan matches index 0 first, so the returned vector has entry `0`,
not `1`, at index 2. -/
theorem c3_counterexample :
    (4 : Fin 5) ≠ 0 ∧
      (evaluate_all_lagrange_polynomials (4 : Fin 5) 3
        (geometric_sequence 4 2)).getD 2 0 ≠ 1 := by
  decide

/-- Claim C3 (amended): for every index `i < m`, when the `m` domain
elements are pairwise distinct (the domain invariant; with a repeated
sequence the scan returns the first matching index instead, see the
counterexample), `evaluate_all_lagrange_polynomials(geometric_sequence[i])`
returns a vector of length `m` whose `i`-th entry is one and whose every
other entry is zero. -/
theorem c3_lagrange_unit_vector {F : Type} [Field F] [DecidableEq F]
    (g : F) (m i : Nat) (hi : i < m) (hd : (seqList g m).Nodup) :
    (evaluate_all_lagrange_polynomials g m (geometric_sequence g i)).length = m ∧
      ∀ j, j < m →
        (evaluate_all_lagrange_polynomials g m (geometric_sequence g i)).getD j 0
          = if j = i then 1 else 0 := by
  have heval : evaluate_all_lagrange_polynomials g m (geometric_sequence g i)
      = (List.range m).map fun j => if j = i then 1 else 0 := by
    rw [evaluate_all_lagrange_polynomials, exactHit_self hi hd]
  rw [heval]
  exact ⟨by simp, fun j hj => getD_map_range _ _ hj⟩

theorem c3_lagrange_unit_vector_witness :
    ((1 : Nat) < 3 ∧ (seqList (2 : Fin 5) 3).Nodup) ∧
      ((evaluate_all_lagrange_polynomials (2 : Fin 5) 3
          (geometric_sequence 2 1)).length = 3 ∧
        ∀ j, j < 3 →
          (evaluate_all_lagrange_polynomials (2 : Fin 5) 3
            (geometric_sequence 2 1)).getD j 0 = if j = 1 then 1 else 0) :=
  ⟨⟨by decide, by decide⟩,
    c3_lagrange_unit_vector 2 3 1 (by decide) (by decide)⟩

/-- Claim C4: under the domain invariant — pairwise distinct domain
elements, non-zero generator, `m > 1` — `evaluate_all_lagrange_polynomials`
never passes zero to the field `.inversed()` operation, for every input
`t`: the exact-hit branch performs no inversion at all, and in the general
branch every inverted quantity (`geometric_sequence[m-1]`, `g_vanish`, and
each `t - geometric_sequence[i]` and `1 - geometric_sequence[i]`) is
non-zero because the exact-hit scan ran first and the domain elements are
distinct. -/
theorem c4_lagrange_no_zero_inversion {F : Type} [Field F] [DecidableEq F]
    (g : F) (m : Nat) (hm : 1 < m) (hg : g ≠ 0) (hd : (seqList g m).Nodup) :
    ∀ t : F, ∀ x ∈ lagrangeInvArgs g m t, x ≠ 0 := by
  intro t x hx
  rw [lagrangeInvArgs] at hx
  rcases hhit : exactHit g m t with _ | i
  · rw [hhit] at hx
    have hmiss := exactHit_none_iff.mp hhit
    have hone : ∀ i, 1 ≤ i → i < m → (1 : F) - geometric_sequence g i ≠ 0 := by
      intro i h1 h2
      refine sub_ne_zero.mpr fun hcontra => ?_
      have : geometric_sequence g 0 = geometric_sequence g i := by
        rw [geometric_sequence]
        exact hcontra
      have := seqList_inj_on hd 0 i (by omega) h2 this
      omega
    simp only [List.mem_cons] at hx
    rcases hx with rfl | rfl | rfl | hx
    · exact geometric_sequence_ne_zero hg (m - 1)
    · rw [Finset.prod_ne_zero_iff]
      intro i hi
      rw [Finset.mem_Ico] at hi
      exact hone i hi.1 hi.2
    · exact sub_ne_zero.mpr fun hc => hmiss 0 (by omega) hc.symm
    · rw [List.mem_flatten] at hx
      obtain ⟨l, hl, hxl⟩ := hx
      rw [List.mem_map] at hl
      obtain ⟨i, hirange, rfl⟩ := hl
      rw [List.mem_range'_1] at hirange
      simp only [List.mem_cons, List.not_mem_nil, or_false] at hxl
      rcases hxl with rfl | rfl
      · rw [lagrangeGvec, if_neg (by omega)]
        exact hone i (by omega) (by omega)
      · exact sub_ne_zero.mpr fun hc => hmiss i (by omega) hc.symm
  · rw [hhit] at hx
    exact absurd hx (List.not_mem_nil x)

theorem c4_lagrange_no_zero_inversion_witness :
    ((1 : Nat) < 3 ∧ (2 : Fin 5) ≠ 0 ∧ (seqList (2 : Fin 5) 3).Nodup) ∧
      ∀ x ∈ lagrangeInvArgs (2 : Fin 5) 3 3, x ≠ 0 :=
  ⟨⟨by decide, by decide, by decide⟩,
    c4_lagrange_no_zero_inversion 2 3 (by decide) (by decide) (by decide) 3⟩
